/-
Verification of the feed-forward classifier with checkpointing exercised by the
two notebooks of this repository ("Part 5 - Training Neural Networks" and
"Part 6 - Saving and Loading Models").

Shallow embedding notes.
* Tensor values are rationals (`Scalar := ℚ`): the claims under study are about
  shapes, error enumeration, determinism, gradient bookkeeping and the SGD
  update rule, none of which depends on inexact float rounding; exact
  arithmetic makes every statement decidable on concrete inputs.
* A tensor (`Param`) is shape metadata plus flat row-major storage, as in the
  framework.  An affine layer (`Linear`) mirrors `nn.Linear(in, out)`:
  weight of shape [out, in] and bias of shape [out].
* The `Network` mirrors `fc_model.Network` as printed by the Part 6 notebook:
  a `ModuleList` of hidden `Linear` layers, each followed by ReLU and (during
  training only) `Dropout(p)`, then an `output` `Linear` and `log_softmax`.
  Log-sum-exp is transcendental and hence not a rational function; it is
  abstracted as an explicit parameter `lse`, so every theorem below holds for
  every instantiation of it, including the true one.  Dropout's random mask is
  threaded explicitly (`masks layer index`), as is pseudo-random parameter
  initialisation (`gen`), making all nondeterminism an explicit input.
* Parameter names form the finite namespace `PKey`; `PKey.render` produces the
  exact `state_dict` key strings shown by the notebook
  (`hidden_layers.<i>.weight`, `hidden_layers.<i>.bias`, `output.weight`,
  `output.bias`).
* `Network.load_state_dict` follows `torch.nn.Module.load_state_dict` in
  strict mode as displayed in the Part 6 traceback: it accumulates an error
  entry for every size mismatch (and records missing/unexpected keys) and
  fails with the whole list, succeeding only when there is no error.
* The trainer state machine mirrors the loop of the training notebook:
  `optimizer.zero_grad()`, forward, loss, `loss.backward()` (gradient
  ACCUMULATION into per-parameter `.grad`), `optimizer.step()` with
  `optim.SGD(params, lr)` semantics `p ← p - lr * grad(p)`.  Reverse-mode
  differentiation itself is the external engine; the gradient produced for a
  batch is an abstract function `gradFn net batch key`, which suffices for the
  bookkeeping claims.  `padZip` keeps the left operand's length; in the
  framework a gradient always has exactly its parameter's shape, so the two
  agree on all states the system reaches.
-/
import Mathlib

namespace Fc

abbrev Scalar := ℚ

/-- A tensor: shape metadata plus flat row-major storage. -/
structure Param where
  shape : List Nat
  data : List Scalar
deriving DecidableEq, Repr

/-- `nn.Linear(in_features, out_features)`: an affine layer `x ↦ W x + b`. -/
structure Linear where
  in_features : Nat
  out_features : Nat
  weight : Param
  bias : Param
deriving DecidableEq, Repr

/-- Dot product of two vectors. -/
def dot (xs ys : List Scalar) : Scalar :=
  (List.zipWith (fun a b => a * b) xs ys).sum

/-- Apply an affine layer.  `none` models the shape error the framework raises
when the input's feature dimension differs from `in_features`; this check is
what the forward pass surfaces on mis-sized batches.  Row `i` of the weight is
the slice `data[i*in .. i*in+in)`; the bias entry is read with a default,
which agrees with the framework on every well-formed tensor. -/
def Linear.apply (l : Linear) (x : List Scalar) : Option (List Scalar) :=
  if x.length = l.in_features then
    some ((List.range l.out_features).map (fun i =>
      dot ((l.weight.data.drop (i * l.in_features)).take l.in_features) x + l.bias.data.getD i 0))
  else none

/-- `F.relu` on one scalar. -/
def relu (a : Scalar) : Scalar := max a 0

/-- `F.relu` elementwise. -/
def reluV (v : List Scalar) : List Scalar := v.map relu

/-- `nn.Dropout(p)` in training mode with an explicit random mask:
entry `i` is kept (and scaled by `1/(1-p)`, inverted dropout) when `mask i`
is true, zeroed otherwise.  In eval mode dropout is the identity and this
function is not used. -/
def dropoutTrain (p : Scalar) (mask : Nat → Bool) : Nat → List Scalar → List Scalar
  | _, [] => []
  | i, a :: v => (if mask i then a / (1 - p) else 0) :: dropoutTrain p mask (i + 1) v

/-- `model.train()` / `model.eval()` mode toggle. -/
inductive Mode where
  | train
  | eval
deriving DecidableEq, Repr

/-- `F.log_softmax(v) = v - logsumexp v`, with the transcendental log-sum-exp
abstracted as the parameter `lse`. -/
def logSoftmax (lse : List Scalar → Scalar) (v : List Scalar) : List Scalar :=
  v.map (fun a => a - lse v)

/-- Modelled from the spec: `fc_model.Network` itself (imported by the Part 6
notebook) is not among the provided sources; its module structure is fixed by
the notebook's printed repr (a `ModuleList` of hidden `Linear` layers, an
`output` `Linear`, and `Dropout(p=0.5)`) and by spec section 4.1. -/
structure Network where
  hidden_layers : List Linear
  output : Linear
  drop_p : Scalar
deriving DecidableEq, Repr

/-- The declared input width: the first hidden layer's `in_features`. -/
def Network.input_size (net : Network) : Nat :=
  match net.hidden_layers with
  | [] => net.output.in_features
  | l :: _ => l.in_features

/-- The class count: the output layer's `out_features`. -/
def Network.output_size (net : Network) : Nat :=
  net.output.out_features

/-- Modelled from the spec: the hidden stack of `fc_model.Network.forward`
(source file not provided) per spec section 4.1 —
`x = dropout(relu(linear(x)))` for each hidden layer, dropout in training
mode only, with `i` the layer index selecting its dropout mask. -/
def hiddenForward (mode : Mode) (p : Scalar) (masks : Nat → Nat → Bool) :
    Nat → List Linear → List Scalar → Option (List Scalar)
  | _, [], x => some x
  | i, l :: ls, x =>
    match l.apply x with
    | none => none
    | some y =>
      hiddenForward mode p masks (i + 1) ls
        (match mode with
         | Mode.train => dropoutTrain p (masks i) 0 (reluV y)
         | Mode.eval => reluV y)

/-- Modelled from the spec: `fc_model.Network.forward` (source file not
provided) per spec section 4.1 — hidden stack, output layer, then
`log_softmax`, on one input row. -/
def Network.forward (lse : List Scalar → Scalar) (mode : Mode) (masks : Nat → Nat → Bool)
    (net : Network) (x : List Scalar) : Option (List Scalar) :=
  match hiddenForward mode net.drop_p masks 0 net.hidden_layers x with
  | none => none
  | some h =>
    match net.output.apply h with
    | none => none
    | some out => some (logSoftmax lse out)

/-- Forward pass on a batch (shape [B, input]); any row failure is the
batch's failure, as a shape error aborts the whole call. -/
def Network.batchForward (lse : List Scalar → Scalar) (mode : Mode) (masks : Nat → Nat → Bool)
    (net : Network) : List (List Scalar) → Option (List (List Scalar))
  | [] => some []
  | x :: xs =>
    match net.forward lse mode masks x with
    | none => none
    | some y =>
      match Network.batchForward lse mode masks net xs with
      | none => none
      | some ys => some (y :: ys)

/-- Build one `nn.Linear(nin, nout)` with pseudo-random initial values drawn
from the explicit generator `gen shape index`. -/
def mkLinear (nin nout : Nat) (gen : List Nat → Nat → Scalar) : Linear :=
  { in_features := nin
    out_features := nout
    weight := { shape := [nout, nin], data := (List.range (nout * nin)).map (gen [nout, nin]) }
    bias := { shape := [nout], data := (List.range nout).map (gen [nout]) } }

/-- The hidden `ModuleList`: `Linear(input, h0), Linear(h0, h1), ...`, with
`idx` numbering the layers for the initialisation stream. -/
def buildHidden (gen : Nat → List Nat → Nat → Scalar) : Nat → Nat → List Nat → List Linear
  | _, _, [] => []
  | idx, nin, h :: hs => mkLinear nin h (gen idx) :: buildHidden gen (idx + 1) h hs

/-- `hidden_sizes[-1]` with the input size as the degenerate default. -/
def lastSize : Nat → List Nat → Nat
  | n, [] => n
  | _, h :: hs => lastSize h hs

/-- Modelled from the spec: `fc_model.Network(input_size, output_size,
hidden_sizes, drop_p)` (source file not provided) per spec section 4.1 and
the notebook's printed repr — affine layers `input_size → hidden_sizes[0] →
... → hidden_sizes[-1] → output_size`, parameters initialised from `gen`. -/
def Network.construct (input_size output_size : Nat) (hidden_sizes : List Nat)
    (drop_p : Scalar) (gen : Nat → List Nat → Nat → Scalar) : Network :=
  { hidden_layers := buildHidden gen 0 input_size hidden_sizes
    output := mkLinear (lastSize input_size hidden_sizes) output_size (gen hidden_sizes.length)
    drop_p := drop_p }

/-- The finite namespace of `state_dict` parameter names. -/
inductive PKey where
  | hiddenWeight (i : Nat)
  | hiddenBias (i : Nat)
  | outputWeight
  | outputBias
deriving DecidableEq, Repr

/-- The exact key strings shown by the notebook's `state_dict().keys()`. -/
def PKey.render : PKey → String
  | .hiddenWeight i => "hidden_layers." ++ toString i ++ ".weight"
  | .hiddenBias i => "hidden_layers." ++ toString i ++ ".bias"
  | .outputWeight => "output.weight"
  | .outputBias => "output.bias"

/-- The hidden layers' `state_dict` entries, in module order, starting the
index count at `i`. -/
def stateDictHidden : Nat → List Linear → List (PKey × Param)
  | _, [] => []
  | i, l :: ls =>
    (PKey.hiddenWeight i, l.weight) :: (PKey.hiddenBias i, l.bias) :: stateDictHidden (i + 1) ls

/-- `model.state_dict()`: every parameter tensor keyed by its stable name,
in module registration order. -/
def Network.state_dict (net : Network) : List (PKey × Param) :=
  stateDictHidden 0 net.hidden_layers ++
    [(PKey.outputWeight, net.output.weight), (PKey.outputBias, net.output.bias)]

/-- First-match dictionary lookup. -/
def lookupKey {β : Type} (k : PKey) : List (PKey × β) → Option β
  | [] => none
  | (k', v) :: rest => if k = k' then some v else lookupKey k rest

/-- The checkpoint record written by the Part 6 notebook: exactly the keys
`input_size`, `output_size`, `hidden_layers` and the `state_dict` of
parameter arrays. -/
structure Checkpoint where
  input_size : Nat
  output_size : Nat
  hidden_layers : List Nat
  state_dict : List (PKey × Param)
deriving DecidableEq, Repr

/-- The notebook's checkpoint construction:
`{input_size, output_size, hidden_layers = [each.out_features for each in
model.hidden_layers], state_dict = model.state_dict()}`. -/
def save_checkpoint (net : Network) : Checkpoint :=
  { input_size := net.input_size
    output_size := net.output_size
    hidden_layers := net.hidden_layers.map Linear.out_features
    state_dict := net.state_dict }

/-- One size-mismatch error entry, as in the traceback: the parameter name,
the shape found in the checkpoint, and the shape in the current model. -/
structure SizeMismatch where
  key : PKey
  checkpointShape : List Nat
  modelShape : List Nat
deriving DecidableEq, Repr

/-- The full error raised by a strict `load_state_dict`: all size mismatches,
plus missing and unexpected keys. -/
structure LoadErrors where
  mismatches : List SizeMismatch
  missing : List PKey
  unexpected : List PKey
deriving DecidableEq, Repr

/-- Every parameter of the model whose checkpoint counterpart has a different
shape, in `state_dict` order — the accumulated `error_msgs` of the traceback. -/
def sizeMismatches (net : Network) (sd : List (PKey × Param)) : List SizeMismatch :=
  net.state_dict.filterMap (fun kp =>
    match lookupKey kp.1 sd with
    | some q =>
      if q.shape = kp.2.shape then none
      else some { key := kp.1, checkpointShape := q.shape, modelShape := kp.2.shape }
    | none => none)

/-- Model parameters with no entry in the incoming `state_dict`. -/
def missingKeys (net : Network) (sd : List (PKey × Param)) : List PKey :=
  net.state_dict.filterMap (fun kp => if (lookupKey kp.1 sd).isSome then none else some kp.1)

/-- Incoming entries naming no parameter of the model. -/
def unexpectedKeys (net : Network) (sd : List (PKey × Param)) : List PKey :=
  sd.filterMap (fun kp => if (lookupKey kp.1 net.state_dict).isSome then none else some kp.1)

/-- Copy the checkpoint tensors into the hidden layers (by indexed name),
keeping a layer's own tensor where the checkpoint has none. -/
def loadHidden (sd : List (PKey × Param)) : Nat → List Linear → List Linear
  | _, [] => []
  | i, l :: ls =>
    { l with
      weight := (lookupKey (PKey.hiddenWeight i) sd).getD l.weight
      bias := (lookupKey (PKey.hiddenBias i) sd).getD l.bias } :: loadHidden sd (i + 1) ls

/-- Copy the checkpoint tensors into all parameter slots. -/
def loadApply (net : Network) (sd : List (PKey × Param)) : Network :=
  { net with
    hidden_layers := loadHidden sd 0 net.hidden_layers
    output := { net.output with
      weight := (lookupKey PKey.outputWeight sd).getD net.output.weight
      bias := (lookupKey PKey.outputBias sd).getD net.output.bias } }

/-- `model.load_state_dict(sd)` (strict): succeed only when there is no size
mismatch and no missing or unexpected key; otherwise raise one error carrying
every accumulated entry, exactly as in the notebook's `RuntimeError`. -/
def Network.load_state_dict (net : Network) (sd : List (PKey × Param)) :
    Except LoadErrors Network :=
  let ms := sizeMismatches net sd
  let mks := missingKeys net sd
  let uks := unexpectedKeys net sd
  if ms.isEmpty && mks.isEmpty && uks.isEmpty then Except.ok (loadApply net sd)
  else Except.error { mismatches := ms, missing := mks, unexpected := uks }

/-- `fc_model.Network`'s default dropout rate (`drop_p=0.5`), used by
`load_checkpoint`, which does not persist the rate. -/
def defaultDropP : Scalar := 1 / 2

/-- The notebook's `load_checkpoint`: rebuild a `Network` from the recorded
sizes (freshly initialised from `gen`), then `load_state_dict`. -/
def load_checkpoint (gen : Nat → List Nat → Nat → Scalar) (c : Checkpoint) :
    Except LoadErrors Network :=
  (Network.construct c.input_size c.output_size c.hidden_layers defaultDropP gen).load_state_dict
    c.state_dict

/-- Pointwise combination keeping the left operand's length, padding the right
with zeros.  On equal lengths (the only case the framework produces, since a
gradient always has its parameter's shape) it is plain `zipWith`. -/
def padZip (f : Scalar → Scalar → Scalar) : List Scalar → List Scalar → List Scalar
  | [], _ => []
  | a :: xs, [] => f a 0 :: padZip f xs []
  | a :: xs, b :: ys => f a b :: padZip f xs ys

/-- Autograd's accumulation into `.grad`: `acc += g`. -/
def addGrad (acc g : List Scalar) : List Scalar :=
  padZip (fun a b => a + b) acc g

/-- One SGD data update: `d ← d - lr * g`, elementwise. -/
def updData (lr : Scalar) (d g : List Scalar) : List Scalar :=
  padZip (fun a b => a - lr * b) d g

/-- SGD on one parameter tensor: shape untouched, data updated. -/
def updParam (lr : Scalar) (g : List Scalar) (p : Param) : Param :=
  { p with data := updData lr p.data g }

/-- The trainer's mutable state: the model and the per-parameter gradient
accumulators (`.grad`), keyed like the `state_dict`. -/
structure TrainerState where
  net : Network
  gradAcc : List (PKey × List Scalar)
deriving DecidableEq, Repr

/-- `optimizer.zero_grad()`: a zero accumulator for every model parameter. -/
def zeroGrad (s : TrainerState) : TrainerState :=
  { s with gradAcc := s.net.state_dict.map (fun kp => (kp.1, kp.2.data.map (fun _ => 0))) }

/-- `loss.backward()`: ADD this batch's gradient `g` into each accumulator
(gradients are additive across backward calls). -/
def backward (g : PKey → List Scalar) (s : TrainerState) : TrainerState :=
  { s with gradAcc := s.gradAcc.map (fun kv => (kv.1, addGrad kv.2 (g kv.1))) }

/-- SGD over the hidden layers, reading each tensor's gradient by its name. -/
def sgdHidden (lr : Scalar) (gf : PKey → List Scalar) : Nat → List Linear → List Linear
  | _, [] => []
  | i, l :: ls =>
    { l with
      weight := updParam lr (gf (PKey.hiddenWeight i)) l.weight
      bias := updParam lr (gf (PKey.hiddenBias i)) l.bias } :: sgdHidden lr gf (i + 1) ls

/-- `optim.SGD(model.parameters(), lr).step()` given the gradients `gf`:
every parameter `p ← p - lr * grad(p)`; nothing else changes. -/
def sgdStepNet (lr : Scalar) (gf : PKey → List Scalar) (net : Network) : Network :=
  { net with
    hidden_layers := sgdHidden lr gf 0 net.hidden_layers
    output := { net.output with
      weight := updParam lr (gf PKey.outputWeight) net.output.weight
      bias := updParam lr (gf PKey.outputBias) net.output.bias } }

/-- `optimizer.step()`: apply SGD using the accumulated gradients. -/
def optimizerStep (lr : Scalar) (s : TrainerState) : TrainerState :=
  { s with net := sgdStepNet lr (fun k => (lookupKey k s.gradAcc).getD []) s.net }

/-- The loop body of the training notebook, in source order:
`optimizer.zero_grad()`; forward + loss + `loss.backward()` (delivering
`gradFn net b`); `optimizer.step()`. -/
def trainBatch {β : Type} (lr : Scalar) (gradFn : Network → β → PKey → List Scalar)
    (s : TrainerState) (b : β) : TrainerState :=
  optimizerStep lr (backward (gradFn s.net b) (zeroGrad s))

/-- One epoch: the loop body over every batch of the loader. -/
def trainEpoch {β : Type} (lr : Scalar) (gradFn : Network → β → PKey → List Scalar)
    (s : TrainerState) (bs : List β) : TrainerState :=
  bs.foldl (trainBatch lr gradFn) s

/-- The full training loop: `for e in range(epochs): for batch in loader`. -/
def train {β : Type} (lr : Scalar) (gradFn : Network → β → PKey → List Scalar)
    (epochs : Nat) (bs : List β) (s : TrainerState) : TrainerState :=
  (List.range epochs).foldl (fun st _ => trainEpoch lr gradFn st bs) s

/-- The layer widths chain correctly starting from input width `n`. -/
def chainOkB : Nat → List Linear → Bool
  | _, [] => true
  | n, l :: ls => (l.in_features == n) && chainOkB l.out_features ls

/-- The width produced by the hidden stack on an input of width `n`. -/
def lastOutF : Nat → List Linear → Nat
  | n, [] => n
  | _, l :: ls => lastOutF l.out_features ls

/-- The architecture is internally consistent: hidden widths chain and the
output layer consumes the last hidden width. -/
def Network.wfArch (net : Network) : Prop :=
  chainOkB net.input_size net.hidden_layers = true ∧
    net.output.in_features = lastOutF net.input_size net.hidden_layers

/-- A layer's tensors carry the shapes its widths imply. -/
def Linear.wfShape (l : Linear) : Prop :=
  l.weight.shape = [l.out_features, l.in_features] ∧ l.bias.shape = [l.out_features]

/-- A well-formed model: consistent architecture, correct tensor shapes, and
at least one hidden layer (as `fc_model.Network` requires). -/
def Network.wf (net : Network) : Prop :=
  net.wfArch ∧ (∀ l ∈ net.hidden_layers, l.wfShape) ∧ net.output.wfShape ∧
    net.hidden_layers ≠ []

instance (net : Network) : Decidable net.wfArch := by
  unfold Network.wfArch
  infer_instance

instance (l : Linear) : Decidable l.wfShape := by
  unfold Linear.wfShape
  infer_instance

instance (net : Network) : Decidable net.wf := by
  unfold Network.wf
  infer_instance

/-- Everything fixed at construction time about one layer: widths, tensor
shapes and tensor sizes. -/
def Linear.archOf (l : Linear) : Nat × Nat × List Nat × Nat × List Nat × Nat :=
  (l.in_features, l.out_features, l.weight.shape, l.weight.data.length,
    l.bias.shape, l.bias.data.length)

/-- Everything fixed at construction time about the model. -/
def Network.archOf (net : Network) :
    List (Nat × Nat × List Nat × Nat × List Nat × Nat) ×
      (Nat × Nat × List Nat × Nat × List Nat × Nat) :=
  (net.hidden_layers.map Linear.archOf, net.output.archOf)

/-! ### Helper lemmas -/

theorem padZip_length (f : Scalar → Scalar → Scalar) :
    ∀ xs ys : List Scalar, (padZip f xs ys).length = xs.length := by
  intro xs
  induction xs with
  | nil => intro ys; cases ys <;> simp [padZip]
  | cons a xs ih =>
    intro ys
    cases ys with
    | nil => simp [padZip, ih]
    | cons b ys => simp [padZip, ih]

theorem padZip_getD (f : Scalar → Scalar → Scalar) :
    ∀ (xs ys : List Scalar) (i : Nat), i < xs.length →
      (padZip f xs ys).getD i 0 = f (xs.getD i 0) (ys.getD i 0) := by
  intro xs
  induction xs with
  | nil => intro ys i h; simp at h
  | cons a xs ih =>
    intro ys i h
    cases ys with
    | nil =>
      cases i with
      | zero => simp [padZip]
      | succ j =>
        simp only [padZip, List.getD_cons_succ]
        have hj : j < xs.length := by simpa using h
        simpa using ih [] j hj
    | cons b ys =>
      cases i with
      | zero => simp [padZip]
      | succ j =>
        simp only [padZip, List.getD_cons_succ]
        have hj : j < xs.length := by simpa using h
        exact ih ys j hj

theorem padZip_eq_zipWith (f : Scalar → Scalar → Scalar) :
    ∀ xs ys : List Scalar, xs.length = ys.length →
      padZip f xs ys = List.zipWith f xs ys := by
  intro xs
  induction xs with
  | nil => intro ys h; cases ys <;> simp [padZip]
  | cons a xs ih =>
    intro ys h
    cases ys with
    | nil => simp at h
    | cons b ys =>
      simp only [List.length_cons, Nat.succ_inj] at h
      simp [padZip, List.zipWith, ih ys h]

theorem addGrad_zeros :
    ∀ d g : List Scalar, g.length = d.length →
      addGrad (d.map (fun _ => 0)) g = g := by
  intro d
  induction d with
  | nil =>
    intro g h
    have : g = [] := List.length_eq_zero.mp h
    simp [this, addGrad, padZip]
  | cons a d ih =>
    intro g h
    cases g with
    | nil => simp at h
    | cons b g =>
      simp only [List.length_cons, Nat.succ_inj] at h
      simp [addGrad, padZip, List.map] at ih ⊢
      exact ih g h

theorem updData_zero :
    ∀ (lr : Scalar) (d g : List Scalar), (∀ i, g.getD i 0 = 0) →
      updData lr d g = d := by
  intro lr d
  induction d with
  | nil => intro g _; cases g <;> simp [updData, padZip]
  | cons a d ih =>
    intro g hg
    cases g with
    | nil =>
      simp only [updData, padZip]
      have : updData lr d [] = d := ih [] (fun i => by simp)
      simp [updData] at this
      simp [this]
    | cons b g =>
      have hb : b = 0 := by simpa using hg 0
      have ht : updData lr d g = d := ih g (fun i => by simpa using hg (i + 1))
      simp [updData, padZip, hb] at ht ⊢
      simp [ht]

theorem dropoutTrain_length (p : Scalar) (mask : Nat → Bool) :
    ∀ (i : Nat) (v : List Scalar), (dropoutTrain p mask i v).length = v.length := by
  intro i v
  induction v generalizing i with
  | nil => simp [dropoutTrain]
  | cons a v ih => simp [dropoutTrain, ih]

theorem reluV_length (v : List Scalar) : (reluV v).length = v.length := by
  simp [reluV]

theorem logSoftmax_length (lse : List Scalar → Scalar) (v : List Scalar) :
    (logSoftmax lse v).length = v.length := by
  simp [logSoftmax]

theorem Linear.apply_some (l : Linear) (x : List Scalar) (h : x.length = l.in_features) :
    ∃ y, l.apply x = some y ∧ y.length = l.out_features := by
  refine ⟨(List.range l.out_features).map (fun i =>
    dot ((l.weight.data.drop (i * l.in_features)).take l.in_features) x + l.bias.data.getD i 0),
    ?_, ?_⟩
  · simp [Linear.apply, h]
  · simp

theorem Linear.apply_none (l : Linear) (x : List Scalar) (h : x.length ≠ l.in_features) :
    l.apply x = none := by
  simp [Linear.apply, h]

theorem Linear.apply_length (l : Linear) (x y : List Scalar) (h : l.apply x = some y) :
    y.length = l.out_features := by
  by_cases hx : x.length = l.in_features
  · simp [Linear.apply, hx] at h
    simp [← h]
  · simp [Linear.apply_none l x hx] at h

theorem hiddenForward_some (mode : Mode) (p : Scalar) (masks : Nat → Nat → Bool) :
    ∀ (ls : List Linear) (k : Nat) (x : List Scalar), chainOkB x.length ls = true →
      ∃ y, hiddenForward mode p masks k ls x = some y ∧ y.length = lastOutF x.length ls := by
  intro ls
  induction ls with
  | nil => intro k x _; exact ⟨x, rfl, rfl⟩
  | cons l ls ih =>
    intro k x hchain
    simp only [chainOkB, Bool.and_eq_true, beq_iff_eq] at hchain
    obtain ⟨hin, hrest⟩ := hchain
    obtain ⟨y, hy, hylen⟩ := Linear.apply_some l x hin.symm
    cases mode with
    | train =>
      have hlen : (dropoutTrain p (masks k) 0 (reluV y)).length = l.out_features := by
        rw [dropoutTrain_length, reluV_length, hylen]
      obtain ⟨z, hz, hzlen⟩ := ih (k + 1) (dropoutTrain p (masks k) 0 (reluV y)) (by rw [hlen]; exact hrest)
      refine ⟨z, ?_, ?_⟩
      · simp [hiddenForward, hy, hz]
      · rw [hzlen, hlen, lastOutF]
    | eval =>
      have hlen : (reluV y).length = l.out_features := by rw [reluV_length, hylen]
      obtain ⟨z, hz, hzlen⟩ := ih (k + 1) (reluV y) (by rw [hlen]; exact hrest)
      refine ⟨z, ?_, ?_⟩
      · simp [hiddenForward, hy, hz]
      · rw [hzlen, hlen, lastOutF]

theorem hiddenForward_none (mode : Mode) (p : Scalar) (masks : Nat → Nat → Bool)
    (l : Linear) (ls : List Linear) (k : Nat) (x : List Scalar)
    (h : x.length ≠ l.in_features) :
    hiddenForward mode p masks k (l :: ls) x = none := by
  simp [hiddenForward, Linear.apply_none l x h]

theorem hiddenForward_eval_irrelevant (p1 p2 : Scalar) (m1 m2 : Nat → Nat → Bool) :
    ∀ (ls : List Linear) (k1 k2 : Nat) (x : List Scalar),
      hiddenForward Mode.eval p1 m1 k1 ls x = hiddenForward Mode.eval p2 m2 k2 ls x := by
  intro ls
  induction ls with
  | nil => intro k1 k2 x; rfl
  | cons l ls ih =>
    intro k1 k2 x
    simp only [hiddenForward]
    cases l.apply x with
    | none => rfl
    | some y => exact ih (k1 + 1) (k2 + 1) (reluV y)

theorem Network.forward_some (lse : List Scalar → Scalar) (mode : Mode)
    (masks : Nat → Nat → Bool) (net : Network) (x : List Scalar)
    (harch : net.wfArch) (h : x.length = net.input_size) :
    ∃ y, net.forward lse mode masks x = some y ∧ y.length = net.output_size := by
  obtain ⟨hchain, hout⟩ := harch
  obtain ⟨z, hz, hzlen⟩ := hiddenForward_some mode net.drop_p masks net.hidden_layers 0 x
    (by rw [h]; exact hchain)
  have hz2 : z.length = net.output.in_features := by
    rw [hzlen, h, hout]
  obtain ⟨w, hw, hwlen⟩ := Linear.apply_some net.output z hz2
  refine ⟨logSoftmax lse w, ?_, ?_⟩
  · simp [Network.forward, hz, hw]
  · rw [logSoftmax_length, hwlen]; rfl

theorem Network.forward_none (lse : List Scalar → Scalar) (mode : Mode)
    (masks : Nat → Nat → Bool) (net : Network) (x : List Scalar)
    (h : x.length ≠ net.input_size) :
    net.forward lse mode masks x = none := by
  match hnet : net.hidden_layers with
  | [] =>
    have hin : net.input_size = net.output.in_features := by
      simp [Network.input_size, hnet]
    have : net.output.apply x = none :=
      Linear.apply_none net.output x (by rw [← hin]; exact h)
    simp [Network.forward, hnet, hiddenForward, this]
  | l :: ls =>
    have hin : net.input_size = l.in_features := by
      simp [Network.input_size, hnet]
    simp [Network.forward, hnet,
      hiddenForward_none mode net.drop_p masks l ls 0 x (by rw [← hin]; exact h)]

theorem Network.batchForward_some (lse : List Scalar → Scalar) (mode : Mode)
    (masks : Nat → Nat → Bool) (net : Network) (harch : net.wfArch) :
    ∀ xs : List (List Scalar), (∀ r ∈ xs, r.length = net.input_size) →
      ∃ ys, net.batchForward lse mode masks xs = some ys ∧ ys.length = xs.length ∧
        ∀ y ∈ ys, y.length = net.output_size := by
  intro xs
  induction xs with
  | nil => intro _; exact ⟨[], rfl, rfl, by simp⟩
  | cons x xs ih =>
    intro hrows
    obtain ⟨y, hy, hylen⟩ := Network.forward_some lse mode masks net x harch
      (hrows x (by simp))
    obtain ⟨ys, hys, hyslen, hysall⟩ := ih (fun r hr => hrows r (by simp [hr]))
    refine ⟨y :: ys, ?_, by simp [hyslen], ?_⟩
    · simp [Network.batchForward, hy, hys]
    · intro z hz
      rcases List.mem_cons.mp hz with h | h
      · rw [h]; exact hylen
      · exact hysall z h

theorem Network.batchForward_none (lse : List Scalar → Scalar) (mode : Mode)
    (masks : Nat → Nat → Bool) (net : Network) :
    ∀ xs : List (List Scalar), (∃ r ∈ xs, r.length ≠ net.input_size) →
      net.batchForward lse mode masks xs = none := by
  intro xs
  induction xs with
  | nil => intro h; simp at h
  | cons x xs ih =>
    intro h
    obtain ⟨r, hr, hrlen⟩ := h
    rcases List.mem_cons.mp hr with heq | hmem
    · rw [heq] at hrlen
      simp [Network.batchForward, Network.forward_none lse mode masks net x hrlen]
    · simp only [Network.batchForward]
      cases net.forward lse mode masks x with
      | none => rfl
      | some y => rw [ih ⟨r, hmem, hrlen⟩]

theorem buildHidden_chain (gen : Nat → List Nat → Nat → Scalar) :
    ∀ (hs : List Nat) (k nin : Nat), chainOkB nin (buildHidden gen k nin hs) = true := by
  intro hs
  induction hs with
  | nil => intro k nin; rfl
  | cons h hs ih =>
    intro k nin
    simp [buildHidden, chainOkB, mkLinear, ih]

theorem buildHidden_lastOutF (gen : Nat → List Nat → Nat → Scalar) :
    ∀ (hs : List Nat) (k nin : Nat),
      lastOutF nin (buildHidden gen k nin hs) = lastSize nin hs := by
  intro hs
  induction hs with
  | nil => intro k nin; rfl
  | cons h hs ih =>
    intro k nin
    simp [buildHidden, lastOutF, lastSize, mkLinear, ih]

theorem buildHidden_length (gen : Nat → List Nat → Nat → Scalar) :
    ∀ (hs : List Nat) (k nin : Nat), (buildHidden gen k nin hs).length = hs.length := by
  intro hs
  induction hs with
  | nil => intro k nin; rfl
  | cons h hs ih =>
    intro k nin
    simp [buildHidden, ih]

theorem construct_input_size (input output : Nat) (hs : List Nat) (p : Scalar)
    (gen : Nat → List Nat → Nat → Scalar) :
    (Network.construct input output hs p gen).input_size = input := by
  cases hs with
  | nil => rfl
  | cons h hs => rfl

theorem construct_output_size (input output : Nat) (hs : List Nat) (p : Scalar)
    (gen : Nat → List Nat → Nat → Scalar) :
    (Network.construct input output hs p gen).output_size = output := rfl

theorem construct_wfArch (input output : Nat) (hs : List Nat) (p : Scalar)
    (gen : Nat → List Nat → Nat → Scalar) :
    (Network.construct input output hs p gen).wfArch := by
  constructor
  · rw [construct_input_size]
    exact buildHidden_chain gen hs 0 input
  · rw [construct_input_size]
    show (mkLinear (lastSize input hs) output (gen hs.length)).in_features = _
    simp [mkLinear, Network.construct, buildHidden_lastOutF]

/-! ### Claim theorems -/

/-- A concrete pseudo-random initialisation stream for instantiating the
theorems on explicit models. -/
def sampleGen : Nat → List Nat → Nat → Scalar := fun i s j =>
  (i : Scalar) * 7 + (s.length : Scalar) * 3 + (j : Scalar) * 2 + 1

/-- C3: for all valid `(input_size, output_size, hidden_sizes)` and every
batch size `B`, the forward pass on an input of shape `[B, input_size]`
returns an output of shape `[B, output_size]` (in any mode, for any dropout
masks and any log-sum-exp). -/
theorem forward_batch_shape (input output : Nat) (hs : List Nat) (p : Scalar)
    (gen : Nat → List Nat → Nat → Scalar) (lse : List Scalar → Scalar) (mode : Mode)
    (masks : Nat → Nat → Bool) (xs : List (List Scalar))
    (hvalid : hs ≠ []) (hrows : ∀ r ∈ xs, r.length = input) :
    ∃ ys, (Network.construct input output hs p gen).batchForward lse mode masks xs = some ys ∧
      ys.length = xs.length ∧ ∀ y ∈ ys, y.length = output := by
  obtain ⟨ys, hys, hlen, hall⟩ := Network.batchForward_some lse mode masks
    (Network.construct input output hs p gen) (construct_wfArch input output hs p gen) xs
    (by rw [construct_input_size]; exact hrows)
  exact ⟨ys, hys, hlen, fun y hy => by
    have := hall y hy
    rwa [construct_output_size] at this⟩

theorem forward_batch_shape_witness :
    ((([2, 1] : List Nat) ≠ []) ∧ ∀ r ∈ [[(1 : Scalar), 2, 3], [4, 5, 6]], r.length = 3) ∧
    ∃ ys, (Network.construct 3 4 [2, 1] (1 / 2) sampleGen).batchForward (fun _ => 0) Mode.eval
        (fun _ _ => true) [[(1 : Scalar), 2, 3], [4, 5, 6]] = some ys ∧
      ys.length = 2 ∧ ∀ y ∈ ys, y.length = 4 :=
  ⟨⟨by decide, by decide⟩,
    forward_batch_shape 3 4 [2, 1] (1 / 2) sampleGen (fun _ => 0) Mode.eval
      (fun _ _ => true) [[(1 : Scalar), 2, 3], [4, 5, 6]] (by decide) (by decide)⟩

/-- C5: a validation-mode (eval) forward pass is a deterministic function of
the input and the parameters: the dropout mask — the only source of
randomness in a forward pass — does not influence the result because dropout
is disabled in eval mode. -/
theorem eval_forward_deterministic (lse : List Scalar → Scalar) (net : Network)
    (x : List Scalar) (masks1 masks2 : Nat → Nat → Bool) :
    net.forward lse Mode.eval masks1 x = net.forward lse Mode.eval masks2 x := by
  simp only [Network.forward]
  rw [hiddenForward_eval_irrelevant net.drop_p net.drop_p masks1 masks2 net.hidden_layers 0 0 x]

/-- C7: the forward pass fails (with a shape error, modelled as `none`) on a
batch exactly when some row's feature dimension differs from the model's
declared `input_size`; on a batch whose rows all have the declared width it
does not fail. -/
theorem forward_feature_dim_check (lse : List Scalar → Scalar) (mode : Mode)
    (masks : Nat → Nat → Bool) (net : Network) (xs : List (List Scalar))
    (harch : net.wfArch) :
    net.batchForward lse mode masks xs = none ↔ ∃ r ∈ xs, r.length ≠ net.input_size := by
  constructor
  · intro hnone
    by_contra hno
    push_neg at hno
    obtain ⟨ys, hys, -, -⟩ := Network.batchForward_some lse mode masks net harch xs hno
    rw [hys] at hnone
    exact Option.noConfusion hnone
  · exact Network.batchForward_none lse mode masks net xs

theorem forward_feature_dim_check_witness :
    (Network.construct 2 2 [1] (1 / 2) sampleGen).wfArch ∧
    ((Network.construct 2 2 [1] (1 / 2) sampleGen).batchForward (fun _ => 0) Mode.eval
        (fun _ _ => true) [[(5 : Scalar)]] = none ↔
      ∃ r ∈ [[(5 : Scalar)]], r.length ≠ (Network.construct 2 2 [1] (1 / 2) sampleGen).input_size) :=
  ⟨by decide,
    forward_feature_dim_check (fun _ => 0) Mode.eval (fun _ _ => true)
      (Network.construct 2 2 [1] (1 / 2) sampleGen) [[(5 : Scalar)]] (by decide)⟩

/-! ### State-dict lookup lemmas -/

theorem lookupKey_mem {β : Type} (k : PKey) (v : β) :
    ∀ l : List (PKey × β), lookupKey k l = some v → (k, v) ∈ l := by
  intro l
  induction l with
  | nil => intro h; simp [lookupKey] at h
  | cons kv l ih =>
    intro h
    obtain ⟨k', v'⟩ := kv
    by_cases hk : k = k'
    · subst hk
      simp [lookupKey] at h
      simp [h]
    · simp [lookupKey, hk] at h
      simp [ih h]

theorem lookup_stateDictHidden_weight :
    ∀ (ls : List Linear) (k i : Nat) (rest : List (PKey × Param)) (h : i < ls.length),
      lookupKey (PKey.hiddenWeight (k + i)) (stateDictHidden k ls ++ rest) =
        some ((ls.get ⟨i, h⟩).weight) := by
  intro ls
  induction ls with
  | nil => intro k i rest h; simp at h
  | cons l ls ih =>
    intro k i rest h
    cases i with
    | zero => simp [stateDictHidden, lookupKey]
    | succ j =>
      have hj : j < ls.length := by simpa using h
      have hne : k + (j + 1) ≠ k := by omega
      have hstep : k + (j + 1) = (k + 1) + j := by omega
      simp only [stateDictHidden, List.cons_append, lookupKey, hstep]
      rw [if_neg (by simp; omega), if_neg (by simp)]
      exact ih (k + 1) j rest hj

theorem lookup_stateDictHidden_bias :
    ∀ (ls : List Linear) (k i : Nat) (rest : List (PKey × Param)) (h : i < ls.length),
      lookupKey (PKey.hiddenBias (k + i)) (stateDictHidden k ls ++ rest) =
        some ((ls.get ⟨i, h⟩).bias) := by
  intro ls
  induction ls with
  | nil => intro k i rest h; simp at h
  | cons l ls ih =>
    intro k i rest h
    cases i with
    | zero => simp [stateDictHidden, lookupKey]
    | succ j =>
      have hj : j < ls.length := by simpa using h
      have hstep : k + (j + 1) = (k + 1) + j := by omega
      simp only [stateDictHidden, List.cons_append, lookupKey, hstep]
      rw [if_neg (by simp), if_neg (by simp; omega)]
      exact ih (k + 1) j rest hj

theorem lookup_stateDictHidden_outputWeight :
    ∀ (ls : List Linear) (k : Nat) (rest : List (PKey × Param)),
      lookupKey PKey.outputWeight (stateDictHidden k ls ++ rest) =
        lookupKey PKey.outputWeight rest := by
  intro ls
  induction ls with
  | nil => intro k rest; rfl
  | cons l ls ih =>
    intro k rest
    simp only [stateDictHidden, List.cons_append, lookupKey]
    rw [if_neg (by simp), if_neg (by simp)]
    exact ih (k + 1) rest

theorem lookup_stateDictHidden_outputBias :
    ∀ (ls : List Linear) (k : Nat) (rest : List (PKey × Param)),
      lookupKey PKey.outputBias (stateDictHidden k ls ++ rest) =
        lookupKey PKey.outputBias rest := by
  intro ls
  induction ls with
  | nil => intro k rest; rfl
  | cons l ls ih =>
    intro k rest
    simp only [stateDictHidden, List.cons_append, lookupKey]
    rw [if_neg (by simp), if_neg (by simp)]
    exact ih (k + 1) rest

theorem lookup_state_dict_weight (net : Network) (i : Nat) (h : i < net.hidden_layers.length) :
    lookupKey (PKey.hiddenWeight i) net.state_dict =
      some ((net.hidden_layers.get ⟨i, h⟩).weight) := by
  have := lookup_stateDictHidden_weight net.hidden_layers 0 i
    [(PKey.outputWeight, net.output.weight), (PKey.outputBias, net.output.bias)] h
  simpa [Network.state_dict] using this

theorem lookup_state_dict_bias (net : Network) (i : Nat) (h : i < net.hidden_layers.length) :
    lookupKey (PKey.hiddenBias i) net.state_dict =
      some ((net.hidden_layers.get ⟨i, h⟩).bias) := by
  have := lookup_stateDictHidden_bias net.hidden_layers 0 i
    [(PKey.outputWeight, net.output.weight), (PKey.outputBias, net.output.bias)] h
  simpa [Network.state_dict] using this

theorem lookup_state_dict_outputWeight (net : Network) :
    lookupKey PKey.outputWeight net.state_dict = some net.output.weight := by
  simp [Network.state_dict, lookup_stateDictHidden_outputWeight, lookupKey]

theorem lookup_state_dict_outputBias (net : Network) :
    lookupKey PKey.outputBias net.state_dict = some net.output.bias := by
  simp [Network.state_dict, lookup_stateDictHidden_outputBias, lookupKey]

theorem mem_stateDictHidden :
    ∀ (ls : List Linear) (k : Nat) (a : PKey × Param), a ∈ stateDictHidden k ls ↔
      ∃ i, ∃ h : i < ls.length,
        a = (PKey.hiddenWeight (k + i), (ls.get ⟨i, h⟩).weight) ∨
        a = (PKey.hiddenBias (k + i), (ls.get ⟨i, h⟩).bias) := by
  intro ls
  induction ls with
  | nil =>
    intro k a
    simp [stateDictHidden]
  | cons l ls ih =>
    intro k a
    simp only [stateDictHidden, List.mem_cons, ih (k + 1)]
    constructor
    · rintro (rfl | rfl | ⟨i, h, hcase⟩)
      · exact ⟨0, by simp, by simp⟩
      · exact ⟨0, by simp, by simp⟩
      · refine ⟨i + 1, by simpa using h, ?_⟩
        have hstep : k + (i + 1) = (k + 1) + i := by omega
        simpa [hstep] using hcase
    · rintro ⟨i, h, hcase⟩
      cases i with
      | zero =>
        simp only [List.get] at hcase
        rcases hcase with rfl | rfl
        · left; rfl
        · right; left; rfl
      | succ j =>
        right; right
        have hj : j < ls.length := by simpa using h
        refine ⟨j, hj, ?_⟩
        have hstep : k + (j + 1) = (k + 1) + j := by omega
        simpa [hstep] using hcase

theorem mem_state_dict (net : Network) (a : PKey × Param) : a ∈ net.state_dict ↔
    (∃ i, ∃ h : i < net.hidden_layers.length,
      a = (PKey.hiddenWeight i, (net.hidden_layers.get ⟨i, h⟩).weight) ∨
      a = (PKey.hiddenBias i, (net.hidden_layers.get ⟨i, h⟩).bias)) ∨
    a = (PKey.outputWeight, net.output.weight) ∨ a = (PKey.outputBias, net.output.bias) := by
  constructor
  · intro ha
    rcases List.mem_append.mp ha with h | h
    · obtain ⟨i, hi, hcase⟩ := (mem_stateDictHidden net.hidden_layers 0 a).mp h
      exact Or.inl ⟨i, hi, by simpa using hcase⟩
    · rcases List.mem_cons.mp h with h1 | h1
      · exact Or.inr (Or.inl h1)
      · exact Or.inr (Or.inr (by simpa using h1))
  · rintro (⟨i, hi, hcase⟩ | h | h)
    · exact List.mem_append.mpr (Or.inl ((mem_stateDictHidden net.hidden_layers 0 a).mpr
        ⟨i, hi, by simpa using hcase⟩))
    · exact List.mem_append.mpr (Or.inr (by simp [h]))
    · exact List.mem_append.mpr (Or.inr (by simp [h]))

/-- C1: whenever the incoming state dict has at least one shape mismatch
against the model, loading raises an error whose mismatch list is exactly the
list of ALL mismatched parameters, each entry carrying the parameter name,
the checkpoint's shape and the current model's shape — in particular every
mismatched parameter appears in it, not only the first. -/
theorem load_state_dict_enumerates_all_mismatches (net : Network) (sd : List (PKey × Param))
    (hmm : sizeMismatches net sd ≠ []) :
    ∃ e, net.load_state_dict sd = Except.error e ∧
      e.mismatches = sizeMismatches net sd ∧
      ∀ k p q, lookupKey k net.state_dict = some p → lookupKey k sd = some q →
        q.shape ≠ p.shape →
        ({ key := k, checkpointShape := q.shape, modelShape := p.shape } : SizeMismatch) ∈
          e.mismatches := by
  refine ⟨⟨sizeMismatches net sd, missingKeys net sd, unexpectedKeys net sd⟩, ?_, rfl, ?_⟩
  · have hfalse : (sizeMismatches net sd).isEmpty = false := by
      cases hsm : sizeMismatches net sd with
      | nil => exact absurd hsm hmm
      | cons a l => rfl
    simp [Network.load_state_dict, hfalse]
  · intro k p q hp hq hne
    have hpmem : (k, p) ∈ net.state_dict := lookupKey_mem k p net.state_dict hp
    refine List.mem_filterMap.mpr ⟨(k, p), hpmem, ?_⟩
    simp [hq, hne]

theorem load_state_dict_enumerates_all_mismatches_witness :
    sizeMismatches (Network.construct 2 2 [2] (1 / 2) sampleGen)
        (save_checkpoint (Network.construct 2 2 [1] (1 / 2) sampleGen)).state_dict ≠ [] ∧
    ∃ e, (Network.construct 2 2 [2] (1 / 2) sampleGen).load_state_dict
        (save_checkpoint (Network.construct 2 2 [1] (1 / 2) sampleGen)).state_dict =
          Except.error e ∧
      e.mismatches = sizeMismatches (Network.construct 2 2 [2] (1 / 2) sampleGen)
        (save_checkpoint (Network.construct 2 2 [1] (1 / 2) sampleGen)).state_dict := by
  refine ⟨by decide, ?_⟩
  obtain ⟨e, h1, h2, -⟩ := load_state_dict_enumerates_all_mismatches
    (Network.construct 2 2 [2] (1 / 2) sampleGen)
    (save_checkpoint (Network.construct 2 2 [1] (1 / 2) sampleGen)).state_dict (by decide)
  exact ⟨e, h1, h2⟩

/-- The key sequence `hidden_layers.k.weight, hidden_layers.k.bias, ...` for
`n` consecutive hidden layers starting at index `k`. -/
def hiddenKeys : Nat → Nat → List PKey
  | _, 0 => []
  | k, n + 1 => PKey.hiddenWeight k :: PKey.hiddenBias k :: hiddenKeys (k + 1) n

theorem stateDictHidden_keys :
    ∀ (ls : List Linear) (k : Nat),
      (stateDictHidden k ls).map Prod.fst = hiddenKeys k ls.length := by
  intro ls
  induction ls with
  | nil => intro k; rfl
  | cons l ls ih =>
    intro k
    simp [stateDictHidden, hiddenKeys, ih]

/-- C6: `save` produces a record with exactly the fields `input_size`,
`output_size`, `hidden_layers` (the ordered widths) and the parameter arrays
of the `state_dict`, whose keys are precisely
`hidden_layers.<index>.weight, hidden_layers.<index>.bias` for each hidden
index in order followed by `output.weight, output.bias` (the `Checkpoint`
structure has no further field, so these four components are the whole
record). -/
theorem checkpoint_record_format (m : Network) :
    (save_checkpoint m).input_size = m.input_size ∧
    (save_checkpoint m).output_size = m.output_size ∧
    (save_checkpoint m).hidden_layers = m.hidden_layers.map Linear.out_features ∧
    (save_checkpoint m).state_dict.map Prod.fst =
      hiddenKeys 0 m.hidden_layers.length ++ [PKey.outputWeight, PKey.outputBias] ∧
    (save_checkpoint m).state_dict.map (fun kp => kp.1.render) =
      (hiddenKeys 0 m.hidden_layers.length).map PKey.render ++
        ["output.weight", "output.bias"] ∧
    (∀ i : Nat, (PKey.hiddenWeight i).render = "hidden_layers." ++ toString i ++ ".weight") ∧
    (∀ i : Nat, (PKey.hiddenBias i).render = "hidden_layers." ++ toString i ++ ".bias") := by
  refine ⟨rfl, rfl, rfl, ?_, ?_, fun i => rfl, fun i => rfl⟩
  · simp [save_checkpoint, Network.state_dict, stateDictHidden_keys]
  · have hkeys : (save_checkpoint m).state_dict.map Prod.fst =
        hiddenKeys 0 m.hidden_layers.length ++ [PKey.outputWeight, PKey.outputBias] := by
      simp [save_checkpoint, Network.state_dict, stateDictHidden_keys]
    calc (save_checkpoint m).state_dict.map (fun kp => kp.1.render)
        = ((save_checkpoint m).state_dict.map Prod.fst).map PKey.render := by
          rw [List.map_map]; rfl
      _ = (hiddenKeys 0 m.hidden_layers.length).map PKey.render ++
            ["output.weight", "output.bias"] := by rw [hkeys]; simp [PKey.render]

/-! ### Checkpoint round-trip machinery -/

/-- A layer's widths. -/
def inOut (l : Linear) : Nat × Nat := (l.in_features, l.out_features)

theorem lastSize_map :
    ∀ (ls : List Linear) (nin : Nat),
      lastSize nin (ls.map Linear.out_features) = lastOutF nin ls := by
  intro ls
  induction ls with
  | nil => intro nin; rfl
  | cons l ls ih => intro nin; simp [lastSize, lastOutF, ih]

theorem buildHidden_inOut_map (gen : Nat → List Nat → Nat → Scalar) :
    ∀ (ls : List Linear) (nin k : Nat), chainOkB nin ls = true →
      (buildHidden gen k nin (ls.map Linear.out_features)).map inOut = ls.map inOut := by
  intro ls
  induction ls with
  | nil => intro nin k _; rfl
  | cons l ls ih =>
    intro nin k hchain
    simp only [chainOkB, Bool.and_eq_true, beq_iff_eq] at hchain
    obtain ⟨hin, hrest⟩ := hchain
    simp only [List.map_cons, buildHidden, List.map]
    rw [ih l.out_features (k + 1) hrest]
    congr 1
    simp [inOut, mkLinear, hin]

theorem buildHidden_wfShape (gen : Nat → List Nat → Nat → Scalar) :
    ∀ (hs : List Nat) (k nin : Nat) (l : Linear), l ∈ buildHidden gen k nin hs → l.wfShape := by
  intro hs
  induction hs with
  | nil => intro k nin l h; simp [buildHidden] at h
  | cons h0 hs ih =>
    intro k nin l h
    rcases List.mem_cons.mp h with heq | hmem
    · rw [heq]; exact ⟨rfl, rfl⟩
    · exact ih (k + 1) h0 l hmem

/-- Two models with the same architecture: equally many hidden layers,
pointwise equal widths, and matching output widths. -/
def sameArch (a b : Network) : Prop :=
  a.hidden_layers.length = b.hidden_layers.length ∧
  (∀ (i : Nat) (h1 : i < a.hidden_layers.length) (h2 : i < b.hidden_layers.length),
    inOut (a.hidden_layers.get ⟨i, h1⟩) = inOut (b.hidden_layers.get ⟨i, h2⟩)) ∧
  a.output.in_features = b.output.in_features ∧
  a.output.out_features = b.output.out_features

theorem construct_sameArch (m : Network) (p : Scalar) (gen : Nat → List Nat → Nat → Scalar)
    (hchain : chainOkB m.input_size m.hidden_layers = true)
    (houtf : m.output.in_features = lastOutF m.input_size m.hidden_layers) :
    sameArch
      (Network.construct m.input_size m.output_size (m.hidden_layers.map Linear.out_features)
        p gen) m := by
  have hmap := buildHidden_inOut_map gen m.hidden_layers m.input_size 0 hchain
  have hlen : (buildHidden gen 0 m.input_size (m.hidden_layers.map Linear.out_features)).length =
      m.hidden_layers.length := by
    rw [buildHidden_length, List.length_map]
  refine ⟨hlen, ?_, ?_, rfl⟩
  · intro i h1 h2
    have h1' : i < (buildHidden gen 0 m.input_size
        (m.hidden_layers.map Linear.out_features)).length := h1
    have hthis := congrArg (fun l => l.get? i) hmap
    simp only [List.get?_map] at hthis
    rw [List.get?_eq_get h1', List.get?_eq_get h2] at hthis
    simp only [Option.map_some'] at hthis
    exact Option.some_inj.mp hthis
  · show (mkLinear (lastSize m.input_size (m.hidden_layers.map Linear.out_features))
      m.output_size (gen (m.hidden_layers.map Linear.out_features).length)).in_features = _
    simp [mkLinear, lastSize_map, houtf]

theorem loadHidden_get? (sd : List (PKey × Param)) :
    ∀ (cs : List Linear) (k i : Nat),
      (loadHidden sd k cs).get? i = (cs.get? i).map (fun c =>
        { c with
          weight := (lookupKey (PKey.hiddenWeight (k + i)) sd).getD c.weight
          bias := (lookupKey (PKey.hiddenBias (k + i)) sd).getD c.bias }) := by
  intro cs
  induction cs with
  | nil => intro k i; simp [loadHidden]
  | cons c cs ih =>
    intro k i
    cases i with
    | zero => simp [loadHidden]
    | succ j =>
      have hstep : k + (j + 1) = (k + 1) + j := by omega
      simp only [loadHidden, List.get?_cons_succ, hstep]
      exact ih (k + 1) j

theorem loadHidden_length (sd : List (PKey × Param)) :
    ∀ (cs : List Linear) (k : Nat), (loadHidden sd k cs).length = cs.length := by
  intro cs
  induction cs with
  | nil => intro k; rfl
  | cons c cs ih => intro k; simp [loadHidden, ih]

theorem Linear.copyInto (c d : Linear) (hin : c.in_features = d.in_features)
    (hout : c.out_features = d.out_features) :
    { c with weight := d.weight, bias := d.bias } = d := by
  obtain ⟨ci, co, cw, cb⟩ := c
  obtain ⟨di, dm, dw, db⟩ := d
  have h1 : ci = di := hin
  have h2 : co = dm := hout
  subst h1
  subst h2
  rfl

theorem loadApply_roundtrip (a m : Network) (hsa : sameArch a m) :
    loadApply a m.state_dict = { m with drop_p := a.drop_p } := by
  obtain ⟨hlen, hio, hoin, hoout⟩ := hsa
  have hhidden : loadHidden m.state_dict 0 a.hidden_layers = m.hidden_layers := by
    apply List.ext
    intro i
    rw [loadHidden_get? m.state_dict a.hidden_layers 0 i]
    by_cases hi : i < a.hidden_layers.length
    · have hi2 : i < m.hidden_layers.length := hlen ▸ hi
      rw [List.get?_eq_get hi, List.get?_eq_get hi2]
      simp only [Option.map_some']
      congr 1
      have hw := lookup_state_dict_weight m i hi2
      have hb := lookup_state_dict_bias m i hi2
      rw [Nat.zero_add, hw, hb]
      simp only [Option.getD_some]
      have hio' := hio i hi hi2
      simp only [inOut, Prod.mk.injEq] at hio'
      exact Linear.copyInto _ _ hio'.1 hio'.2
    · have hi2 : ¬ i < m.hidden_layers.length := fun h => hi (hlen ▸ h)
      rw [List.get?_eq_none.mpr (by omega), List.get?_eq_none.mpr (by omega)]
      rfl
  have houtput : { a.output with
      weight := (lookupKey PKey.outputWeight m.state_dict).getD a.output.weight
      bias := (lookupKey PKey.outputBias m.state_dict).getD a.output.bias } = m.output := by
    rw [lookup_state_dict_outputWeight m, lookup_state_dict_outputBias m]
    simp only [Option.getD_some]
    exact Linear.copyInto _ _ hoin hoout
  simp only [loadApply, hhidden, houtput]

theorem loadConsistency (a m : Network) (hsa : sameArch a m)
    (hshA : ∀ l ∈ a.hidden_layers, l.wfShape) (hoA : a.output.wfShape)
    (hshB : ∀ l ∈ m.hidden_layers, l.wfShape) (hoB : m.output.wfShape) :
    sizeMismatches a m.state_dict = [] ∧ missingKeys a m.state_dict = [] ∧
      unexpectedKeys a m.state_dict = [] := by
  obtain ⟨hlen, hio, hoin, hoout⟩ := hsa
  refine ⟨?_, ?_, ?_⟩
  · unfold sizeMismatches
    rw [List.filterMap_eq_nil_iff]
    intro kp hkp
    rcases (mem_state_dict a kp).mp hkp with ⟨i, hi, hcase⟩ | hcase | hcase
    · have hi2 : i < m.hidden_layers.length := hlen ▸ hi
      have hioi := hio i hi hi2
      simp only [inOut, Prod.mk.injEq] at hioi
      have hsA := hshA _ (List.get_mem a.hidden_layers i hi)
      have hsB := hshB _ (List.get_mem m.hidden_layers i hi2)
      simp only [List.get_eq_getElem] at hioi hsA hsB
      rcases hcase with rfl | rfl
      · simp [lookup_state_dict_weight m i hi2, hsA.1, hsB.1, hioi.1, hioi.2]
      · simp [lookup_state_dict_bias m i hi2, hsA.2, hsB.2, hioi.2]
    · simp [hcase, lookup_state_dict_outputWeight m, hoA.1, hoB.1, hoin, hoout]
    · simp [hcase, lookup_state_dict_outputBias m, hoA.2, hoB.2, hoout]
  · unfold missingKeys
    rw [List.filterMap_eq_nil_iff]
    intro kp hkp
    rcases (mem_state_dict a kp).mp hkp with ⟨i, hi, hcase⟩ | hcase | hcase
    · have hi2 : i < m.hidden_layers.length := hlen ▸ hi
      rcases hcase with rfl | rfl
      · simp [lookup_state_dict_weight m i hi2]
      · simp [lookup_state_dict_bias m i hi2]
    · simp [hcase, lookup_state_dict_outputWeight m]
    · simp [hcase, lookup_state_dict_outputBias m]
  · unfold unexpectedKeys
    rw [List.filterMap_eq_nil_iff]
    intro kp hkp
    rcases (mem_state_dict m kp).mp hkp with ⟨i, hi, hcase⟩ | hcase | hcase
    · have hi1 : i < a.hidden_layers.length := by omega
      rcases hcase with rfl | rfl
      · simp [lookup_state_dict_weight a i hi1]
      · simp [lookup_state_dict_bias a i hi1]
    · simp [hcase, lookup_state_dict_outputWeight a]
    · simp [hcase, lookup_state_dict_outputBias a]

theorem forward_eval_drop_p (lse : List Scalar → Scalar) (masks : Nat → Nat → Bool)
    (net : Network) (q : Scalar) (x : List Scalar) :
    Network.forward lse Mode.eval masks { net with drop_p := q } x =
      net.forward lse Mode.eval masks x := by
  simp only [Network.forward]
  rw [hiddenForward_eval_irrelevant q net.drop_p masks masks net.hidden_layers 0 0 x]

/-- C2: checkpoint round-trip.  For every well-formed (in particular, every
trained) model `m`, `load(save(m))` succeeds and produces a model whose
eval-mode (dropout disabled) forward output agrees exactly with `m`'s on
every input — over exact arithmetic, "within floating tolerance" is
equality — and the round-trip is bit-for-bit on the persisted record:
`save(load(save(m))) = save(m)`. -/
theorem checkpoint_roundtrip (m : Network) (gen : Nat → List Nat → Nat → Scalar) (hm : m.wf) :
    ∃ m', load_checkpoint gen (save_checkpoint m) = Except.ok m' ∧
      (∀ (lse : List Scalar → Scalar) (masks : Nat → Nat → Bool) (x : List Scalar),
        m'.forward lse Mode.eval masks x = m.forward lse Mode.eval masks x) ∧
      save_checkpoint m' = save_checkpoint m := by
  obtain ⟨⟨hchain, houtf⟩, hshapes, houtshape, hne⟩ := hm
  have hsa := construct_sameArch m defaultDropP gen hchain houtf
  have hshC : ∀ l ∈ (Network.construct m.input_size m.output_size
      (m.hidden_layers.map Linear.out_features) defaultDropP gen).hidden_layers, l.wfShape :=
    fun l hl => buildHidden_wfShape gen _ 0 m.input_size l hl
  have hoC : (Network.construct m.input_size m.output_size
      (m.hidden_layers.map Linear.out_features) defaultDropP gen).output.wfShape := ⟨rfl, rfl⟩
  have hclean := loadConsistency _ m hsa hshC hoC hshapes houtshape
  refine ⟨{ m with drop_p := defaultDropP }, ?_, ?_, ?_⟩
  · show (Network.construct m.input_size m.output_size
      (m.hidden_layers.map Linear.out_features) defaultDropP gen).load_state_dict
        m.state_dict = _
    unfold Network.load_state_dict
    rw [hclean.1, hclean.2.1, hclean.2.2]
    simp only [List.isEmpty_nil, Bool.and_self, if_pos]
    rw [loadApply_roundtrip _ m hsa]
    rfl
  · intro lse masks x
    exact forward_eval_drop_p lse masks m defaultDropP x
  · rfl

theorem checkpoint_roundtrip_witness :
    (Network.construct 2 3 [2] (1 / 2) sampleGen).wf ∧
    ∃ m', load_checkpoint sampleGen
        (save_checkpoint (Network.construct 2 3 [2] (1 / 2) sampleGen)) = Except.ok m' ∧
      save_checkpoint m' = save_checkpoint (Network.construct 2 3 [2] (1 / 2) sampleGen) := by
  refine ⟨by decide, ?_⟩
  obtain ⟨m', h1, -, h3⟩ := checkpoint_roundtrip (Network.construct 2 3 [2] (1 / 2) sampleGen)
    sampleGen (by decide)
  exact ⟨m', h1, h3⟩

/-! ### Trainer lemmas -/

theorem map_eq_self_mem {α : Type} (f : α → α) :
    ∀ l : List α, l.map f = l → ∀ a ∈ l, f a = a := by
  intro l
  induction l with
  | nil => intro _ a ha; simp at ha
  | cons x l ih =>
    intro h a ha
    simp only [List.map_cons, List.cons.injEq] at h
    rcases List.mem_cons.mp ha with rfl | hmem
    · exact h.1
    · exact ih h.2 a hmem

theorem lookupKey_map_keyValue {β γ : Type} (F : PKey → β → γ) (k : PKey) :
    ∀ l : List (PKey × β),
      lookupKey k (l.map (fun kp => (kp.1, F kp.1 kp.2))) =
        (lookupKey k l).map (fun v => F k v) := by
  intro l
  induction l with
  | nil => rfl
  | cons kv l ih =>
    obtain ⟨k', v⟩ := kv
    by_cases hk : k = k'
    · subst hk
      simp [lookupKey]
    · simp [lookupKey, hk, ih]

theorem mem_hiddenKeys : ∀ (n k : Nat) (q : PKey), q ∈ hiddenKeys k n ↔
    ∃ i, i < n ∧ (q = PKey.hiddenWeight (k + i) ∨ q = PKey.hiddenBias (k + i)) := by
  intro n
  induction n with
  | zero => intro k q; simp [hiddenKeys]
  | succ n ih =>
    intro k q
    simp only [hiddenKeys, List.mem_cons, ih (k + 1)]
    constructor
    · rintro (rfl | rfl | ⟨i, hi, hc⟩)
      · exact ⟨0, by omega, Or.inl (by simp)⟩
      · exact ⟨0, by omega, Or.inr (by simp)⟩
      · refine ⟨i + 1, by omega, ?_⟩
        rw [show k + (i + 1) = (k + 1) + i from by omega]
        exact hc
    · rintro ⟨i, hi, hc⟩
      cases i with
      | zero =>
        simp only [Nat.add_zero] at hc
        rcases hc with rfl | rfl
        · exact Or.inl rfl
        · exact Or.inr (Or.inl rfl)
      | succ j =>
        right; right
        refine ⟨j, by omega, ?_⟩
        rw [show (k + 1) + j = k + (j + 1) from by omega]
        exact hc

theorem hiddenKeys_nodup : ∀ (n k : Nat), (hiddenKeys k n).Nodup := by
  intro n
  induction n with
  | zero => intro k; simp [hiddenKeys]
  | succ n ih =>
    intro k
    simp only [hiddenKeys, List.nodup_cons]
    refine ⟨?_, ?_, ih (k + 1)⟩
    · intro hmem
      rcases List.mem_cons.mp hmem with heq | hmem2
      · exact absurd heq (by simp)
      · obtain ⟨i, hi, hc⟩ := (mem_hiddenKeys n (k + 1) _).mp hmem2
        rcases hc with heq | heq
        · simp only [PKey.hiddenWeight.injEq] at heq
          omega
        · simp at heq
    · intro hmem
      obtain ⟨i, hi, hc⟩ := (mem_hiddenKeys n (k + 1) _).mp hmem
      rcases hc with heq | heq
      · simp at heq
      · simp only [PKey.hiddenBias.injEq] at heq
        omega

theorem state_dict_keys_nodup (net : Network) : (net.state_dict.map Prod.fst).Nodup := by
  have hkeys : net.state_dict.map Prod.fst =
      hiddenKeys 0 net.hidden_layers.length ++ [PKey.outputWeight, PKey.outputBias] := by
    simp [Network.state_dict, stateDictHidden_keys]
  rw [hkeys, List.nodup_append]
  refine ⟨hiddenKeys_nodup _ 0, by simp, ?_⟩
  intro q hq hq2
  obtain ⟨i, hi, hc⟩ := (mem_hiddenKeys _ 0 q).mp hq
  rcases hc with rfl | rfl <;> simp at hq2

theorem lookupKey_eq_of_mem {β : Type} (k : PKey) (v : β) :
    ∀ l : List (PKey × β), (l.map Prod.fst).Nodup → (k, v) ∈ l → lookupKey k l = some v := by
  intro l
  induction l with
  | nil => intro _ h; simp at h
  | cons kv l ih =>
    intro hnd hmem
    obtain ⟨k', v'⟩ := kv
    simp only [List.map_cons, List.nodup_cons] at hnd
    rcases List.mem_cons.mp hmem with heq | hmem2
    · simp only [Prod.mk.injEq] at heq
      obtain ⟨rfl, rfl⟩ := heq
      simp [lookupKey]
    · by_cases hk : k = k'
      · subst hk
        exact absurd (List.mem_map.mpr ⟨(k, v), hmem2, rfl⟩) hnd.1
      · simp only [lookupKey, if_neg hk]
        exact ih hnd.2 hmem2

theorem stateDictHidden_sgdHidden (lr : Scalar) (gf : PKey → List Scalar) :
    ∀ (ls : List Linear) (k : Nat),
      stateDictHidden k (sgdHidden lr gf k ls) =
        (stateDictHidden k ls).map (fun kp => (kp.1, updParam lr (gf kp.1) kp.2)) := by
  intro ls
  induction ls with
  | nil => intro k; rfl
  | cons l ls ih =>
    intro k
    simp only [sgdHidden, stateDictHidden, List.map_cons]
    rw [ih (k + 1)]

theorem state_dict_sgdStepNet (lr : Scalar) (gf : PKey → List Scalar) (net : Network) :
    (sgdStepNet lr gf net).state_dict =
      net.state_dict.map (fun kp => (kp.1, updParam lr (gf kp.1) kp.2)) := by
  simp only [Network.state_dict, sgdStepNet, List.map_append, stateDictHidden_sgdHidden]
  rfl

theorem zeros_getD (d : List Scalar) (i : Nat) :
    (d.map (fun _ => (0 : Scalar))).getD i 0 = 0 := by
  induction d generalizing i with
  | nil => simp
  | cons a d ih =>
    cases i with
    | zero => simp
    | succ j => simpa using ih j

theorem updParam_zero (lr : Scalar) (g : List Scalar) (p : Param)
    (hg : ∀ i, g.getD i 0 = 0) : updParam lr g p = p := by
  unfold updParam
  rw [updData_zero lr p.data g hg]

theorem sgdHidden_zero (lr : Scalar) (gf : PKey → List Scalar)
    (hz : ∀ k i, (gf k).getD i 0 = 0) :
    ∀ (ls : List Linear) (k : Nat), sgdHidden lr gf k ls = ls := by
  intro ls
  induction ls with
  | nil => intro k; rfl
  | cons l ls ih =>
    intro k
    simp only [sgdHidden]
    rw [ih (k + 1), updParam_zero lr _ _ (fun i => hz _ i),
      updParam_zero lr _ _ (fun i => hz _ i)]

theorem archOf_updParam (lr : Scalar) (g : List Scalar) (p : Param) :
    (updParam lr g p).shape = p.shape ∧ (updParam lr g p).data.length = p.data.length := by
  exact ⟨rfl, padZip_length _ p.data g⟩

theorem archOf_sgdHidden (lr : Scalar) (gf : PKey → List Scalar) :
    ∀ (ls : List Linear) (k : Nat),
      (sgdHidden lr gf k ls).map Linear.archOf = ls.map Linear.archOf := by
  intro ls
  induction ls with
  | nil => intro k; rfl
  | cons l ls ih =>
    intro k
    simp only [sgdHidden, List.map_cons]
    rw [ih (k + 1)]
    congr 1
    simp [Linear.archOf, updParam, updData, padZip_length]

theorem archOf_sgdStepNet (lr : Scalar) (gf : PKey → List Scalar) (net : Network) :
    (sgdStepNet lr gf net).archOf = net.archOf := by
  unfold Network.archOf
  congr 1
  · exact archOf_sgdHidden lr gf net.hidden_layers 0
  · simp [sgdStepNet, Linear.archOf, updParam, updData, padZip_length]

theorem archOf_trainBatch {β : Type} (lr : Scalar) (gradFn : Network → β → PKey → List Scalar)
    (s : TrainerState) (b : β) :
    (trainBatch lr gradFn s b).net.archOf = s.net.archOf :=
  archOf_sgdStepNet lr _ s.net

theorem archOf_trainEpoch {β : Type} (lr : Scalar) (gradFn : Network → β → PKey → List Scalar) :
    ∀ (bs : List β) (s : TrainerState),
      (trainEpoch lr gradFn s bs).net.archOf = s.net.archOf := by
  intro bs
  induction bs with
  | nil => intro s; rfl
  | cons b bs ih =>
    intro s
    show ((bs.foldl (trainBatch lr gradFn) (trainBatch lr gradFn s b)).net.archOf = _)
    rw [show bs.foldl (trainBatch lr gradFn) (trainBatch lr gradFn s b) =
      trainEpoch lr gradFn (trainBatch lr gradFn s b) bs from rfl]
    rw [ih (trainBatch lr gradFn s b)]
    exact archOf_trainBatch lr gradFn s b

theorem archOf_train {β : Type} (lr : Scalar) (gradFn : Network → β → PKey → List Scalar)
    (bs : List β) :
    ∀ (el : List Nat) (s : TrainerState),
      ((el.foldl (fun st _ => trainEpoch lr gradFn st bs) s).net.archOf = s.net.archOf) := by
  intro el
  induction el with
  | nil => intro s; rfl
  | cons e el ih =>
    intro s
    simp only [List.foldl_cons]
    rw [ih (trainEpoch lr gradFn s bs)]
    exact archOf_trainEpoch lr gradFn bs s

/-- A concrete per-parameter gradient function for instantiating the trainer
theorems on explicit models. -/
def sampleGradFn : Network → Unit → PKey → List Scalar := fun _ _ k =>
  match k with
  | .hiddenWeight _ => [1]
  | .hiddenBias _ => [1]
  | .outputWeight => [1, 2]
  | .outputBias => [1, 2]

/-- C4: gradient bookkeeping of the training loop.  (a) Immediately after
`optimizer.zero_grad()` followed by one `loss.backward()`, the accumulators
hold exactly the current batch's gradients, with no contribution from any
earlier batch.  (b) The loop body performs this reset before every batch:
`trainBatch` is the optimizer step applied to exactly the fresh batch
gradients.  (c) Without a reset, backward passes ADD: two consecutive
accumulations produce the elementwise sum. -/
theorem gradient_reset_isolation {β : Type} (lr : Scalar)
    (gradFn : Network → β → PKey → List Scalar) (s : TrainerState) (b : β)
    (hlen : ∀ kp ∈ s.net.state_dict, (gradFn s.net b kp.1).length = kp.2.data.length) :
    (backward (gradFn s.net b) (zeroGrad s)).gradAcc =
      s.net.state_dict.map (fun kp => (kp.1, gradFn s.net b kp.1)) ∧
    trainBatch lr gradFn s b = optimizerStep lr
      ⟨s.net, s.net.state_dict.map (fun kp => (kp.1, gradFn s.net b kp.1))⟩ ∧
    ∀ acc g1 g2 : List Scalar, acc.length = g1.length → acc.length = g2.length →
      addGrad (addGrad acc g1) g2 =
        List.zipWith (fun x y => x + y) (List.zipWith (fun x y => x + y) acc g1) g2 := by
  have hacc : (backward (gradFn s.net b) (zeroGrad s)).gradAcc =
      s.net.state_dict.map (fun kp => (kp.1, gradFn s.net b kp.1)) := by
    show (s.net.state_dict.map (fun kp => (kp.1, kp.2.data.map (fun _ => (0 : Scalar))))).map
        (fun kv => (kv.1, addGrad kv.2 (gradFn s.net b kv.1))) = _
    rw [List.map_map]
    apply List.map_congr_left
    intro kp hkp
    show (kp.1, addGrad (kp.2.data.map (fun _ => 0)) (gradFn s.net b kp.1)) =
      (kp.1, gradFn s.net b kp.1)
    rw [addGrad_zeros kp.2.data (gradFn s.net b kp.1) (hlen kp hkp)]
  refine ⟨hacc, ?_, ?_⟩
  · show optimizerStep lr (backward (gradFn s.net b) (zeroGrad s)) = _
    exact congrArg (fun acc => optimizerStep lr (TrainerState.mk s.net acc)) hacc
  · intro acc g1 g2 h1 h2
    have e1 : addGrad acc g1 = List.zipWith (fun x y => x + y) acc g1 :=
      padZip_eq_zipWith _ acc g1 h1
    have hlen1 : (addGrad acc g1).length = acc.length := padZip_length _ acc g1
    have e2 : addGrad (addGrad acc g1) g2 =
        List.zipWith (fun x y => x + y) (addGrad acc g1) g2 :=
      padZip_eq_zipWith _ _ g2 (by rw [hlen1]; exact h2)
    rw [e2, e1]

theorem gradient_reset_isolation_witness :
    (∀ kp ∈ (Network.construct 1 2 [1] (1 / 2) sampleGen).state_dict,
      (sampleGradFn (Network.construct 1 2 [1] (1 / 2) sampleGen) () kp.1).length =
        kp.2.data.length) ∧
    (backward (sampleGradFn (Network.construct 1 2 [1] (1 / 2) sampleGen) ())
        (zeroGrad ⟨Network.construct 1 2 [1] (1 / 2) sampleGen, []⟩)).gradAcc =
      (Network.construct 1 2 [1] (1 / 2) sampleGen).state_dict.map
        (fun kp => (kp.1, sampleGradFn (Network.construct 1 2 [1] (1 / 2) sampleGen) () kp.1)) :=
  ⟨by decide,
    (gradient_reset_isolation 1 sampleGradFn
      ⟨Network.construct 1 2 [1] (1 / 2) sampleGen, []⟩ () (by decide)).1⟩

/-- C8: after one loop-body training step (reset, forward, loss, backward,
optimizer update) in which at least one gradient entry is non-zero (and the
learning rate is non-zero, as in the source), at least one parameter of the
model changes: the stepped model differs from the pre-step model. -/
theorem training_step_changes_parameters {β : Type} (lr : Scalar)
    (gradFn : Network → β → PKey → List Scalar) (s : TrainerState) (b : β)
    (hlr : lr ≠ 0)
    (hnz : ∃ kp ∈ s.net.state_dict, ∃ i ∈ List.range kp.2.data.length,
      (gradFn s.net b kp.1).getD i 0 ≠ 0) :
    (trainBatch lr gradFn s b).net ≠ s.net := by
  obtain ⟨⟨k, p⟩, hmem, i, hir, hgnz⟩ := hnz
  have hi : i < p.data.length := List.mem_range.mp hir
  intro heq
  have hacc : (backward (gradFn s.net b) (zeroGrad s)).gradAcc =
      s.net.state_dict.map (fun kp =>
        (kp.1, addGrad (kp.2.data.map (fun _ => 0)) (gradFn s.net b kp.1))) := by
    show (s.net.state_dict.map (fun kp => (kp.1, kp.2.data.map (fun _ => (0 : Scalar))))).map
        (fun kv => (kv.1, addGrad kv.2 (gradFn s.net b kv.1))) = _
    rw [List.map_map]
    rfl
  have hnd := state_dict_keys_nodup s.net
  have hlk : lookupKey k s.net.state_dict = some p :=
    lookupKey_eq_of_mem k p _ hnd hmem
  have hlkacc : lookupKey k ((backward (gradFn s.net b) (zeroGrad s)).gradAcc) =
      some (addGrad (p.data.map (fun _ => 0)) (gradFn s.net b k)) := by
    rw [hacc,
      lookupKey_map_keyValue (fun k' p' => addGrad (p'.data.map (fun _ => 0))
        (gradFn s.net b k')) k s.net.state_dict, hlk]
    rfl
  have hstep : (trainBatch lr gradFn s b).net = sgdStepNet lr
      (fun k' => (lookupKey k' ((backward (gradFn s.net b) (zeroGrad s)).gradAcc)).getD [])
      s.net := rfl
  rw [hstep] at heq
  have hsd := congrArg Network.state_dict heq
  rw [state_dict_sgdStepNet] at hsd
  have hFix := map_eq_self_mem _ s.net.state_dict hsd (k, p) hmem
  have hupd : updParam lr
      ((lookupKey k ((backward (gradFn s.net b) (zeroGrad s)).gradAcc)).getD []) p = p := by
    have hsnd := congrArg Prod.snd hFix
    simpa using hsnd
  rw [hlkacc] at hupd
  simp only [Option.getD_some] at hupd
  have hdata := congrArg Param.data hupd
  simp only [updParam] at hdata
  have hgetD := congrArg (fun dl : List Scalar => dl.getD i 0) hdata
  simp only [updData] at hgetD
  rw [padZip_getD _ p.data _ i hi] at hgetD
  have hFk : (addGrad (p.data.map (fun _ => 0)) (gradFn s.net b k)).getD i 0 =
      (gradFn s.net b k).getD i 0 := by
    show (padZip (fun a b => a + b) (p.data.map (fun _ => 0)) (gradFn s.net b k)).getD i 0 = _
    rw [padZip_getD _ _ _ i (by simpa using hi), zeros_getD]
    exact zero_add _
  rw [hFk] at hgetD
  have hz : lr * (gradFn s.net b k).getD i 0 = 0 := sub_eq_self.mp hgetD
  rcases mul_eq_zero.mp hz with h | h
  · exact hlr h
  · exact hgnz h

theorem training_step_changes_parameters_witness :
    ((1 : Scalar) ≠ 0 ∧
      ∃ kp ∈ (Network.construct 1 2 [1] (1 / 2) sampleGen).state_dict,
        ∃ i ∈ List.range kp.2.data.length,
          (sampleGradFn (Network.construct 1 2 [1] (1 / 2) sampleGen) () kp.1).getD i 0 ≠ 0) ∧
    (trainBatch 1 sampleGradFn
        ⟨Network.construct 1 2 [1] (1 / 2) sampleGen, []⟩ ()).net ≠
      (⟨Network.construct 1 2 [1] (1 / 2) sampleGen, []⟩ : TrainerState).net :=
  ⟨⟨by decide, by decide⟩,
    training_step_changes_parameters 1 sampleGradFn
      ⟨Network.construct 1 2 [1] (1 / 2) sampleGen, []⟩ () (by decide) (by decide)⟩

/-- C9: the architecture is an invariant of training.  The full training loop
(every epoch, every batch: reset, forward, loss, backward, update) preserves
the number of layers and every tensor's shape and size; the gradient reset
and the backward pass leave the model untouched, and the loop body changes
the model exclusively through the optimizer's SGD update step. -/
theorem training_preserves_architecture {β : Type} (lr : Scalar)
    (gradFn : Network → β → PKey → List Scalar) (epochs : Nat) (bs : List β)
    (s : TrainerState) :
    (train lr gradFn epochs bs s).net.archOf = s.net.archOf ∧
    (∀ g : PKey → List Scalar, (backward g s).net = s.net) ∧
    (zeroGrad s).net = s.net ∧
    ∀ b : β, (trainBatch lr gradFn s b).net = sgdStepNet lr
      (fun k => (lookupKey k ((backward (gradFn s.net b) (zeroGrad s)).gradAcc)).getD [])
      s.net := by
  exact ⟨archOf_train lr gradFn bs (List.range epochs) s, fun g => rfl, rfl, fun b => rfl⟩

/-- C10: the SGD optimizer (learning rate `lr`, no momentum) updates every
parameter entry to `p - lr * grad(p)`; in particular a step taken when every
gradient is zero leaves the whole model unchanged. -/
theorem sgd_update_rule (lr : Scalar) :
    (∀ (gv : List Scalar) (p : Param) (i : Nat), i < p.data.length →
      (updParam lr gv p).data.getD i 0 = p.data.getD i 0 - lr * gv.getD i 0) ∧
    (∀ (net : Network) (gf : PKey → List Scalar), (∀ k i, (gf k).getD i 0 = 0) →
      sgdStepNet lr gf net = net) := by
  constructor
  · intro gv p i hi
    show (updData lr p.data gv).getD i 0 = _
    simp only [updData]
    exact padZip_getD _ p.data gv i hi
  · intro net gf hz
    unfold sgdStepNet
    rw [sgdHidden_zero lr gf hz net.hidden_layers 0,
      updParam_zero lr _ _ (fun i => hz _ i), updParam_zero lr _ _ (fun i => hz _ i)]

theorem sgd_update_rule_witness :
    ((0 : Nat) < (⟨[1], [3]⟩ : Param).data.length ∧
      ∀ (k : PKey) (i : Nat), (([] : List Scalar)).getD i 0 = 0) ∧
    (updParam 2 [5] ⟨[1], [3]⟩).data.getD 0 0 =
      (⟨[1], [3]⟩ : Param).data.getD 0 0 - 2 * ([(5 : Scalar)]).getD 0 0 ∧
    sgdStepNet 2 (fun _ => []) (Network.construct 1 1 [1] (1 / 2) sampleGen) =
      Network.construct 1 1 [1] (1 / 2) sampleGen :=
  ⟨⟨by decide, fun k i => by simp⟩,
    (sgd_update_rule 2).1 [5] ⟨[1], [3]⟩ 0 (by decide),
    (sgd_update_rule 2).2 (Network.construct 1 1 [1] (1 / 2) sampleGen) (fun _ => [])
      (fun k i => by simp)⟩

end Fc
